import Mathlib

/-!
Verification of the fuzzy matcher / bulk update engine of plane-cli.

The definitions below are a shallow embedding of the Go sources:
  * `src/internal/fuzzy/matcher.go`   (scorer, matcher, result limiting)
  * `src/internal/plane/types.go`     (work item and update payload records)
  * the bulk-update command           (selection fallback, merge of list
    fields, batch execution, dry run)
  * `src/internal/commands/update.go` (updateAll, printDryRun)

Go `int` is modelled as `Int`; list indices produced by enumerations are
modelled as `Nat`.  Byte lengths of ASCII strings coincide with character
counts, so `String.length` models Go's `len` on the inputs considered here.
The external fuzzy library `github.com/sahilm/fuzzy` is not part of the
repository; it is modelled from the spec where noted.
-/

namespace PlaneCLI

/-- Work item record, from `plane.WorkItem` (src/internal/plane/types.go).
`time.Time` stamps are modelled as `Int` (unix nanoseconds) and `float64`
does not occur here; `*string` fields are `Option String`. -/
structure WorkItem where
  ID : String
  Name : String
  Description : String
  DescriptionHTML : String
  State : String
  StateID : String
  Priority : String
  Assignees : List String
  AssigneeIDs : List String
  Labels : List String
  LabelIDs : List String
  ProjectID : String
  Project : String
  WorkspaceID : String
  SequenceID : Int
  StartDate : Option String
  TargetDate : Option String
  EstimatePoint : Option String
  Module : String
  ModuleID : String
  Cycle : String
  CycleID : String
  ParentID : String
  CreatedAt : Int
  UpdatedAt : Int
deriving DecidableEq, Repr

/-- Update payload, from `plane.WorkItemUpdate` (src/internal/plane/types.go).
The Go field `EstimatePoint float64` is modelled as `Rat` (the program only
ever stores exact decimal flag values there). -/
structure WorkItemUpdate where
  Name : String
  DescriptionHTML : String
  State : String
  Priority : String
  Assignees : List String
  Labels : List String
  StartDate : String
  TargetDate : String
  EstimatePoint : Rat
  Module : String
  Cycle : String
  Parent : String
deriving DecidableEq, Repr

/-- The zero value `&plane.WorkItemUpdate{}` that runBulkUpdate starts from. -/
def emptyWorkItemUpdate : WorkItemUpdate :=
  ⟨"", "", "", "", [], [], "", "", 0, "", "", ""⟩

/-- JSON serialization of the `Assignees` field under its
`json:"assignees,omitempty"` tag: a nil or empty slice is omitted from the
request body, so the wire carries either no field (`none`) or a non-empty
list (`some`).  An explicit empty list can never appear on the wire. -/
def serializedAssignees (u : WorkItemUpdate) : Option (List String) :=
  if u.Assignees.isEmpty then none else some u.Assignees

/-- JSON serialization of the `Labels` field under `json:"labels,omitempty"`. -/
def serializedLabels (u : WorkItemUpdate) : Option (List String) :=
  if u.Labels.isEmpty then none else some u.Labels

/-! ## Fuzzy matcher (src/internal/fuzzy/matcher.go) -/

/-- Models Go's `strings.ToLower` by lowercasing every character (Go folds
full Unicode; the titles and patterns handled here are ASCII, where
`Char.toLower` agrees). -/
def toLowerStr (s : String) : String :=
  ⟨s.data.map Char.toLower⟩

/-- Models Go's `strings.TrimSpace`: leading and trailing whitespace removed. -/
def trimSpace (s : String) : String :=
  ⟨((s.data.dropWhile Char.isWhitespace).reverse.dropWhile Char.isWhitespace).reverse⟩

/-- A single match, from `fuzzy.MatchResult`.  The Go struct also carries an
`Item interface{}` field which no code path in the repository ever sets; it
is omitted. -/
structure MatchResult where
  Index : Nat
  Score : Int
deriving DecidableEq, Repr

/-- The matcher state, from `fuzzy.Matcher`. -/
structure Matcher where
  minScore : Int
deriving DecidableEq, Repr

/-- `fuzzy.NewMatcher`: the minimum score is clamped into [0,100]. -/
def NewMatcher (minScore : Int) : Matcher :=
  ⟨if minScore < 0 then 0 else if minScore > 100 then 100 else minScore⟩

/-- `fuzzy.normalizeScore`: converts a raw fuzzy score to the 0-100 scale.
Direct transcription of the Go function, including its truncating integer
division `(rawScore * 100) / maxScore` (all operands are positive there, so
every integer-division convention agrees). -/
def normalizeScore (rawScore patternLength : Int) : Int :=
  if rawScore ≤ 0 ∨ patternLength ≤ 0 then 0
  else
    let maxScore : Int :=
      if patternLength ≤ 2 then patternLength * 2
      else if patternLength ≤ 4 then patternLength * 3
      else patternLength * 4
    let percentage := rawScore * 100 / maxScore
    let boosted :=
      if patternLength ≤ 3 ∧ rawScore ≥ patternLength then percentage + 30
      else percentage
    if boosted > 100 then 100
    else if boosted < 0 then 0
    else boosted

/-- One raw match of the external matcher, modelling `fuzzy.Match` of
github.com/sahilm/fuzzy (its `Str` and `MatchedIndexes` fields are unused
by the repository and omitted). -/
structure RawMatch where
  Index : Nat
  Score : Int
deriving DecidableEq, Repr

/-- Raw subsequence score of a pattern against a candidate, walking the
candidate left to right; the boolean records whether the previous candidate
character was matched, in which case a consecutive match earns a +1 bonus.
Returns `none` when the pattern is not a subsequence of the candidate. -/
def rawScoreAux : List Char → List Char → Bool → Option Int
  | [], _, _ => some 0
  | _ :: _, [], _ => none
  | p :: ps, h :: hs, prev =>
    if p = h then
      match rawScoreAux ps hs true with
      | some s => some (s + 1 + (if prev then 1 else 0))
      | none => none
    else rawScoreAux (p :: ps) hs false

/-- Modelled from the spec: raw score of the external subsequence matcher.
The spec (§4.1) requires only that pattern characters appear in the
candidate in order and that contiguous runs score higher; matches score at
least the pattern length, non-matches are rejected. -/
def rawScore (pat hay : List Char) : Option Int :=
  rawScoreAux pat hay false

/-- Modelled from the spec: `fuzzy.Find` of github.com/sahilm/fuzzy, whose
source is not part of the repository.  It case-folds the candidate, keeps
exactly the candidates that the pattern matches as a subsequence, reports
them in candidate order with their raw score, and finds nothing for an
empty pattern. -/
def fuzzyFind (pattern : String) (items : List String) : List RawMatch :=
  if pattern = "" then []
  else
    items.enum.filterMap fun p =>
      match rawScore pattern.toList (toLowerStr p.2).toList with
      | some r => some ⟨p.1, r⟩
      | none => none

/-- Insertion of a result into a list sorted by score descending: the new
element goes after every element whose score is at least its own.  This is
exactly where Go's insertion sort places it. -/
def insertDesc (r : MatchResult) : List MatchResult → List MatchResult
  | [] => [r]
  | x :: xs => if x.Score < r.Score then r :: x :: xs else x :: insertDesc r xs

/-- Models `sort.Slice(results, func(i,j) { results[i].Score > results[j].Score })`.
Go's sort.Slice is an unstable pdqsort (insertion sort only on short
slices), so the relative order of equal scores in its output is
implementation-defined; this model fixes one concrete execution (the
insertion sort).  No theorem below relies on the tie order it happens to
produce: only on the output being a permutation of the input sorted by
score non-increasing, which every sort.Slice execution satisfies. -/
def sortByScoreDesc (l : List MatchResult) : List MatchResult :=
  l.foldl (fun acc r => insertDesc r acc) []

/-- `(*Matcher).FindMatches`: empty-pattern guard, pattern normalization
(trim then lowercase), raw matching, per-match normalization and threshold
filter in match order, then the descending sort. -/
def FindMatches (m : Matcher) (pattern : String) (items : List String) :
    List MatchResult :=
  if pattern = "" then []
  else
    let pat := toLowerStr (trimSpace pattern)
    sortByScoreDesc ((fuzzyFind pat items).filterMap fun mt =>
      let ns := normalizeScore mt.Score (pat.length : Int)
      if ns ≥ m.minScore then some ⟨mt.Index, ns⟩ else none)

/-- `fuzzy.LimitResults`: `if limit <= 0 || len(matches) <= limit` the input
is returned unchanged, otherwise the slice `matches[:limit]`.  The Go
parameter `matches` is a Lean keyword and is rendered `matchList`. -/
def LimitResults (matchList : List MatchResult) (limit : Int) : List MatchResult :=
  if limit ≤ 0 ∨ (matchList.length : Int) ≤ limit then matchList
  else matchList.take limit.toNat

/-! ## Bulk update command (src/unnamed/part_004) and update command
(src/internal/commands/update.go) -/

/-- Models Go's `strings.Contains(hay, needle)` at character level: true
when `needle` occurs contiguously inside `hay` (always true for an empty
needle). -/
def containsCL (needle : List Char) : List Char → Bool
  | [] => needle.isEmpty
  | c :: t => needle.isPrefixOf (c :: t) || containsCL needle t

/-- The substring fallback of runBulkUpdate (part_004:500-511): when the
fuzzy matcher found nothing, every title containing the search term
case-insensitively is appended, in candidate order, as a match with score
50. -/
def substringFallback (searchTerm : String) (titles : List String) :
    List MatchResult :=
  titles.enum.filterMap fun p =>
    if containsCL (toLowerStr searchTerm).toList (toLowerStr p.2).toList then
      some ⟨p.1, 50⟩
    else none

/-- The search-based selection of runBulkUpdate (part_004:497-511): the
fuzzy matcher runs first; only if it returns zero results does the
substring fallback produce the match list. -/
def searchSelectMatches (minScore : Int) (searchTerm : String)
    (titles : List String) : List MatchResult :=
  let found := FindMatches (NewMatcher minScore) searchTerm titles
  if found.isEmpty then substringFallback searchTerm titles else found

/-- The shared loop body of `mergeSlices` (part_004:933-954): walk a list,
appending every item not seen before.  The Go `seen` map holds exactly the
members of `result` at all times, so "seen" is membership in the
accumulator. -/
def addMissing (acc : List String) : List String → List String
  | [] => acc
  | x :: xs => if x ∈ acc then addMissing acc xs else addMissing (acc ++ [x]) xs

/-- `mergeSlices(existing, new)` (part_004:933-954): all existing items
first, then the new items, each appended only at its first occurrence.
The Go parameter `new` is rendered `newValues`. -/
def mergeSlices (existing newValues : List String) : List String :=
  addMissing (addMissing [] existing) newValues

/-- Order-preserving first-occurrence deduplication, the `dedupe` of the
spec (§4.3); it is the mergeSlices loop run over a single list. -/
def dedupe (l : List String) : List String :=
  addMissing [] l

/-- Reference for the spec's Add ordering (§4.3): the members of a list not
already in `acc`, in their given order, first occurrence wins. -/
def newItems (acc : List String) : List String → List String
  | [] => []
  | x :: xs => if x ∈ acc then newItems acc xs else x :: newItems (acc ++ [x]) xs

/-- The key set of the Go map `assigneeMap` built by `getAllAssignees`
(part_004:905-917): every assignee id of every work item, first insertion
order, no duplicates. -/
def assigneeMapKeys (workItems : List WorkItem) : List String :=
  dedupe (workItems.foldl (fun acc it => acc ++ it.Assignees) [])

/-- `getAllAssignees` returns the keys of `assigneeMap` by ranging over the
map.  Go randomizes map iteration order per run, so any permutation of the
key set is a possible return value; this predicate states that `result` is
one of them. -/
def GetAllAssigneesCanReturn (workItems : List WorkItem)
    (result : List String) : Prop :=
  result.Perm (assigneeMapKeys workItems)

/-- `selectAssigneesInteractive`, "Clear all assignees" branch
(part_004:779-780): the selection returns the empty id list with
replace = true.  (`selectLabelsInteractive` has the identical branch at
part_004:863-864.) -/
def clearSelection : List String × Bool :=
  ([], true)

/-- The assignee block of runBulkUpdate (part_004:539-561): an interactive
selection result overrides the flag values only when its id list is
non-empty; the payload field is then set only when the final id list is
non-empty (replace takes the list as is, add merges it into the union of
the targets' current assignees).  Returns the new payload and the
hasUpdates contribution of this block. -/
def bulkAssigneePayload (flagAssignees : List String) (flagReplace : Bool)
    (selAssignees : List String) (selReplace : Bool)
    (existingUnion : List String) (upd : WorkItemUpdate) :
    WorkItemUpdate × Bool :=
  let assignees := if selAssignees.length > 0 then selAssignees else flagAssignees
  let replaceAssignees := if selAssignees.length > 0 then selReplace else flagReplace
  if assignees.length > 0 then
    (if replaceAssignees then { upd with Assignees := assignees }
     else { upd with Assignees := mergeSlices existingUnion assignees }, true)
  else (upd, false)

/-- The label block of runBulkUpdate (part_004:579-600), identical in shape
to the assignee block. -/
def bulkLabelPayload (flagLabels : List String) (flagReplace : Bool)
    (selLabels : List String) (selReplace : Bool)
    (existingUnion : List String) (upd : WorkItemUpdate) :
    WorkItemUpdate × Bool :=
  let labels := if selLabels.length > 0 then selLabels else flagLabels
  let replaceLabels := if selLabels.length > 0 then selReplace else flagReplace
  if labels.length > 0 then
    (if replaceLabels then { upd with Labels := labels }
     else { upd with Labels := mergeSlices existingUnion labels }, true)
  else (upd, false)

/-- Per-target outcome of the apply loop, the `BatchOutcome` of the spec:
id, success flag, and the collaborator's error text verbatim when the call
failed. -/
structure ItemOutcome where
  itemID : String
  succeeded : Bool
  errMsg : Option String
deriving DecidableEq, Repr

/-- The apply loop of runBulkUpdate (part_004:662-674): one UpdateWorkItem
call per selected item, in order; an error prints the failure and
increments failCount, a success increments successCount; the loop never
stops early.  The remote collaborator is the parameter `mutate`; the
result is (successCount, failCount, per-item outcomes in order). -/
def applyBulkUpdates
    (mutate : String → String → WorkItemUpdate → Except String WorkItem)
    (projectID : String) (upd : WorkItemUpdate) :
    List WorkItem → Nat × Nat × List ItemOutcome
  | [] => (0, 0, [])
  | item :: rest =>
    let r := applyBulkUpdates mutate projectID upd rest
    match mutate projectID item.ID upd with
    | .error e => (r.1, r.2.1 + 1, ⟨item.ID, false, some e⟩ :: r.2.2)
    | .ok _ => (r.1 + 1, r.2.1, ⟨item.ID, true, none⟩ :: r.2.2)

/-- `updateAll` (src/internal/commands/update.go:361-377): on a failed call
the loop prints to stderr and continues with the next item; only successes
are counted. -/
def updateAllCount
    (mutate : String → String → WorkItemUpdate → Except String WorkItem)
    (project : String) (upd : WorkItemUpdate) : List WorkItem → Nat
  | [] => 0
  | item :: rest =>
    match mutate project item.ID upd with
    | .error _ => updateAllCount mutate project upd rest
    | .ok _ => 1 + updateAllCount mutate project upd rest

/-- `truncate` (src/internal/commands/list.go:156-161).  Go slices bytes;
on ASCII names bytes and characters coincide. -/
def truncate (s : String) (maxLen : Int) : String :=
  if (s.length : Int) ≤ maxLen then s
  else ⟨s.data.take (maxLen - 3).toNat⟩ ++ "..."

/-- One line of the bulk-update preview block (part_004:637-639). -/
def previewLine (item : WorkItem) : String :=
  "  • [" ++ toString item.SequenceID ++ "] " ++ truncate item.Name 50

/-- The execution tail of runBulkUpdate (part_004:631-682): the preview
block always prints one line per selected item, in order; in dry-run mode
the command returns right after the preview, before the confirmation
prompt, and no remote call is made; otherwise, after a positive
confirmation, the apply loop issues one call per item.  Result: (preview
lines, remote calls issued, batch outcome when the apply loop ran). -/
def bulkExecute (dryRun confirmed : Bool)
    (mutate : String → String → WorkItemUpdate → Except String WorkItem)
    (projectID : String) (upd : WorkItemUpdate)
    (selectedWorkItems : List WorkItem) :
    List String × List (String × WorkItemUpdate)
      × Option (Nat × Nat × List ItemOutcome) :=
  let previews := selectedWorkItems.map previewLine
  if dryRun then (previews, [], none)
  else if !confirmed then (previews, [], none)
  else (previews, selectedWorkItems.map (fun it => (it.ID, upd)),
        some (applyBulkUpdates mutate projectID upd selectedWorkItems))

/-- `printUpdateDetails` (src/internal/commands/update.go:407-426): the
detail lines printed for a payload, one per set field. -/
def printUpdateDetails (u : WorkItemUpdate) : List String :=
  (if u.Name ≠ "" then ["  → Title: " ++ u.Name] else []) ++
  (if u.DescriptionHTML ≠ "" then
    ["  → Description: [updated - " ++ toString u.DescriptionHTML.length
      ++ " chars]"] else []) ++
  (if u.State ≠ "" then ["  → State: " ++ u.State] else []) ++
  (if u.Priority ≠ "" then ["  → Priority: " ++ u.Priority] else []) ++
  (if u.Assignees.length > 0 then ["  → Assignees: " ++ toString u.Assignees]
   else []) ++
  (if u.Labels.length > 0 then ["  → Labels: " ++ toString u.Labels] else [])

/-- `printDryRun` (src/internal/commands/update.go:397-405): one preview
block per matched item, in match order — a header line naming the item
followed by the payload details.  No remote call occurs anywhere in the
function. -/
def printDryRun (items : List WorkItem) (u : WorkItemUpdate) :
    List (List String) :=
  items.map fun it => ("  [" ++ it.ID ++ "] " ++ it.Name) :: printUpdateDetails u

/-! ## Reference definitions taken from the wording of the spec and claims -/

/-- The length-dependent ceiling of the spec (§4.1). -/
def ceilingFor (len : Int) : Int :=
  if len ≤ 2 then 2 * len else if len ≤ 4 then 3 * len else 4 * len

/-- Round-half-up division for a positive divisor: the `round` in the
spec's normalization formula. -/
def roundDiv (a b : Int) : Int :=
  (2 * a + b) / (2 * b)

/-- Claim C3's reference normalization exactly as worded: rounding
division, the +30 boost added before clamping for short fully-matched
patterns, zero for non-positive raw scores or empty patterns. -/
def normalizeScoreClaimSpec (raw len : Int) : Int :=
  if raw ≤ 0 ∨ len ≤ 0 then 0
  else
    min 100 (roundDiv (raw * 100) (ceilingFor len) +
      (if len ≤ 3 ∧ raw ≥ len then 30 else 0))

/-- Claim C3's reference normalization amended to the code's truncating
integer division; everything else exactly as the claim words it. -/
def normalizeScoreTruncSpec (raw len : Int) : Int :=
  if raw ≤ 0 ∨ len ≤ 0 then 0
  else
    min 100 (raw * 100 / ceilingFor len +
      (if len ≤ 3 ∧ raw ≥ len then 30 else 0))

/-- The normalized score the spec's total Scorer (§4.1) assigns to a
candidate: the raw subsequence score normalized; 0 when the pattern is not
a subsequence of the case-folded candidate ("raw score collapses toward 0,
final score 0, not an error"). -/
def specTotalScore (key : String) (candidate : String) : Int :=
  match rawScore key.toList (toLowerStr candidate).toList with
  | some r => normalizeScore r (key.length : Int)
  | none => 0

/-- Claim C2's result set as stated: every candidate whose total score
reaches the threshold, indexed from `i`, in candidate order. -/
def claimEligible (minScore : Int) (key : String) :
    Nat → List String → List MatchResult
  | _, [] => []
  | i, t :: ts =>
    if specTotalScore key t ≥ minScore then
      ⟨i, specTotalScore key t⟩ :: claimEligible minScore key (i + 1) ts
    else claimEligible minScore key (i + 1) ts

/-- FindMatches as claim C2 states it: every candidate scored by the total
Scorer, thresholded, then sorted by score descending (realized by applying
the model sort to the index-ordered eligible list; the counterexample below
uses a single-element candidate list, where every sort agrees). -/
def claimFindMatches (minScore0 : Int) (pattern : String)
    (items : List String) : List MatchResult :=
  if pattern = "" then []
  else
    sortByScoreDesc (claimEligible (NewMatcher minScore0).minScore
      (toLowerStr (trimSpace pattern)) 0 items)

/-- Claim C2 amended: the result set restricted to the candidates the
external matcher actually matches (pattern a subsequence of the case-folded
candidate), thresholded on the normalized score, in candidate order. -/
def eligibleMatches (minScore : Int) (key : String) :
    Nat → List String → List MatchResult
  | _, [] => []
  | i, t :: ts =>
    match rawScore key.toList (toLowerStr t).toList with
    | none => eligibleMatches minScore key (i + 1) ts
    | some r =>
      if normalizeScore r (key.length : Int) ≥ minScore then
        ⟨i, normalizeScore r (key.length : Int)⟩ ::
          eligibleMatches minScore key (i + 1) ts
      else eligibleMatches minScore key (i + 1) ts

/-- Claim C9's description of the substring fallback: the titles containing
the lowered search term case-insensitively, walked in order from index `i`,
each one a score-50 match. -/
def fallbackSpec (searchLower : String) : Nat → List String → List MatchResult
  | _, [] => []
  | i, t :: ts =>
    if containsCL searchLower.toList (toLowerStr t).toList then
      ⟨i, 50⟩ :: fallbackSpec searchLower (i + 1) ts
    else fallbackSpec searchLower (i + 1) ts

/-! ## Theorems for claim C3 (score normalization) -/

/-- C3, counterexample: at raw score 5 and pattern length 6 the code's
truncating division gives 20 while the claim's formula
`min(100, round(raw*100/ceiling))` gives `round(500/24) = 21`, so
normalizeScore does not equal the claim's reference definition. -/
theorem c3_counterexample :
    normalizeScore 5 6 = 20 ∧ normalizeScoreClaimSpec 5 6 = 21 ∧
    normalizeScore 5 6 ≠ normalizeScoreClaimSpec 5 6 := by
  refine ⟨by decide, by decide, by decide⟩

/-- C3, amended: normalizeScore equals the claim's reference definition
with the rounding division replaced by truncating integer division — the
ceiling is 2·len for len ≤ 2, 3·len for len 3–4, 4·len for len > 4, the
result is min(100, trunc(raw·100/ceiling)) with 30 points added before
clamping when len ≤ 3 and raw ≥ len, it is 0 whenever raw ≤ 0 or the
pattern is empty, and it always lies in [0, 100]. -/
theorem c3_normalize_score_truncating (raw len : Int) :
    normalizeScore raw len = normalizeScoreTruncSpec raw len ∧
    0 ≤ normalizeScore raw len ∧ normalizeScore raw len ≤ 100 := by
  by_cases hg : raw ≤ 0 ∨ len ≤ 0
  · simp [normalizeScore, normalizeScoreTruncSpec, hg]
  · push_neg at hg
    obtain ⟨hraw, hlen⟩ := hg
    have hmax : (if len ≤ 2 then len * 2 else if len ≤ 4 then len * 3
        else len * 4) = ceilingFor len := by
      unfold ceilingFor
      split_ifs <;> ring
    have hcpos : 0 < ceilingFor len := by
      unfold ceilingFor
      split_ifs <;> omega
    have hper : 0 ≤ raw * 100 / ceilingFor len :=
      Int.ediv_nonneg (by positivity) hcpos.le
    simp only [normalizeScore, normalizeScoreTruncSpec,
      if_neg (by omega : ¬(raw ≤ 0 ∨ len ≤ 0)), hmax]
    rw [min_def]
    split_ifs <;> omega

/-! ## Properties of the insertion sort -/

theorem insertDesc_perm (r : MatchResult) (l : List MatchResult) :
    (insertDesc r l).Perm (r :: l) := by
  induction l with
  | nil => exact List.Perm.refl _
  | cons x xs ih =>
    by_cases h : x.Score < r.Score
    · simp [insertDesc, h]
    · simp only [insertDesc, if_neg h]
      exact (ih.cons x).trans (List.Perm.swap r x xs)

theorem sortPass_perm (l acc : List MatchResult) :
    (l.foldl (fun a r => insertDesc r a) acc).Perm (acc ++ l) := by
  induction l generalizing acc with
  | nil => simp
  | cons r rs ih =>
    simp only [List.foldl_cons]
    refine (ih (insertDesc r acc)).trans ?_
    refine (((insertDesc_perm r acc).append_right rs).trans ?_)
    exact List.perm_middle.symm

theorem sortByScoreDesc_perm (l : List MatchResult) :
    (sortByScoreDesc l).Perm l := by
  simpa using sortPass_perm l []

theorem insertDesc_sorted (r : MatchResult) (l : List MatchResult)
    (hl : l.Pairwise (fun a b => b.Score ≤ a.Score)) :
    (insertDesc r l).Pairwise (fun a b => b.Score ≤ a.Score) := by
  induction l with
  | nil => simp [insertDesc]
  | cons x xs ih =>
    obtain ⟨hx, hxs⟩ := List.pairwise_cons.mp hl
    by_cases h : x.Score < r.Score
    · simp only [insertDesc, if_pos h]
      refine List.pairwise_cons.mpr ⟨?_, hl⟩
      intro y hy
      rcases List.mem_cons.mp hy with rfl | hyxs
      · exact h.le
      · exact (hx y hyxs).trans h.le
    · simp only [insertDesc, if_neg h]
      refine List.pairwise_cons.mpr ⟨?_, ih hxs⟩
      intro y hy
      have hy' : y = r ∨ y ∈ xs := by
        simpa using (insertDesc_perm r xs).mem_iff.mp hy
      rcases hy' with rfl | hyxs
      · exact not_lt.mp h
      · exact hx y hyxs

theorem sortPass_sorted :
    ∀ (l acc : List MatchResult),
      acc.Pairwise (fun a b => b.Score ≤ a.Score) →
      (l.foldl (fun a r => insertDesc r a) acc).Pairwise
        (fun a b => b.Score ≤ a.Score) := by
  intro l
  induction l with
  | nil =>
    intro acc hacc
    simpa using hacc
  | cons r rs ih =>
    intro acc hacc
    simp only [List.foldl_cons]
    exact ih (insertDesc r acc) (insertDesc_sorted r acc hacc)

theorem sortByScoreDesc_sorted (l : List MatchResult) :
    (sortByScoreDesc l).Pairwise (fun a b => b.Score ≤ a.Score) :=
  sortPass_sorted l [] List.Pairwise.nil

/-! ## Properties of the matcher pipeline -/

theorem pipeline_enumFrom (ms : Int) (key : String) (items : List String)
    (i : Nat) :
    (((List.enumFrom i items).filterMap fun p =>
        match rawScore key.toList (toLowerStr p.2).toList with
        | some r => some (⟨p.1, r⟩ : RawMatch)
        | none => none).filterMap fun mt =>
          let ns := normalizeScore mt.Score (key.length : Int)
          if ns ≥ ms then some (⟨mt.Index, ns⟩ : MatchResult) else none)
      = eligibleMatches ms key i items := by
  induction items generalizing i with
  | nil => simp [eligibleMatches]
  | cons t ts ih =>
    simp only [List.enumFrom_cons, List.filterMap_cons]
    cases h : rawScore key.data (toLowerStr t).data with
    | none => simpa [eligibleMatches, h] using ih (i + 1)
    | some r =>
      by_cases hs : normalizeScore r (key.length : Int) ≥ ms
      · simpa [eligibleMatches, h, hs] using ih (i + 1)
      · simpa [eligibleMatches, h, hs] using ih (i + 1)

/-! ## Theorems for claim C2 (FindMatches) -/

/-- C2, counterexample: with min_score 0 (a legal threshold after
clamping), pattern "z" and candidate list ["a"], the candidate's normalized
score under the spec's total Scorer is 0 ≥ 0, so the claimed result set
contains it — but FindMatches returns nothing, because candidates that the
subsequence matcher rejects are never scored at all.  The claim's "exactly
the candidates whose normalized score is >= min_score" is therefore false. -/
theorem c2_counterexample :
    FindMatches (NewMatcher 0) "z" ["a"] = [] ∧
    claimFindMatches 0 "z" ["a"] = [⟨0, 0⟩] ∧
    FindMatches (NewMatcher 0) "z" ["a"] ≠ claimFindMatches 0 "z" ["a"] := by
  refine ⟨by decide, by decide, by decide⟩

/-- C2, amended: for every pattern, candidate list and min_score,
FindMatches returns exactly the candidates that the subsequence matcher
accepts and whose normalized score reaches the (clamped) threshold — the
output is a permutation of that eligible set — ordered by score
non-increasing; an empty (or all-whitespace) pattern yields the empty
result, and candidates the matcher rejects are omitted even when min_score
is 0.  The relative order of equal-score results is implementation-defined
(sort.Slice is unstable) and deliberately not claimed; both conclusions
hold for every execution of an unstable sort and every match order of the
external library. -/
theorem c2_matcher_characterization (minScore0 : Int) (pattern : String)
    (items : List String) :
    (pattern = "" → FindMatches (NewMatcher minScore0) pattern items = []) ∧
    (toLowerStr (trimSpace pattern) = "" →
      FindMatches (NewMatcher minScore0) pattern items = []) ∧
    (pattern ≠ "" → toLowerStr (trimSpace pattern) ≠ "" →
      (FindMatches (NewMatcher minScore0) pattern items).Perm
        (eligibleMatches (NewMatcher minScore0).minScore
          (toLowerStr (trimSpace pattern)) 0 items) ∧
      (FindMatches (NewMatcher minScore0) pattern items).Pairwise
        (fun a b => b.Score ≤ a.Score)) := by
  refine ⟨fun h => by simp [FindMatches, h], fun hkey => ?_, fun hp hkey => ?_⟩
  · by_cases hp : pattern = ""
    · simp [FindMatches, hp]
    · simp [FindMatches, hp, fuzzyFind, hkey, sortByScoreDesc]
  · have hpipe : FindMatches (NewMatcher minScore0) pattern items
        = sortByScoreDesc (eligibleMatches (NewMatcher minScore0).minScore
            (toLowerStr (trimSpace pattern)) 0 items) := by
      simp only [FindMatches, if_neg hp, fuzzyFind, if_neg hkey]
      rw [show (items.enum = List.enumFrom 0 items) from rfl,
        pipeline_enumFrom]
    rw [hpipe]
    exact ⟨sortByScoreDesc_perm _, sortByScoreDesc_sorted _⟩

/-- C2, witness: the amended characterization applied to concrete inputs —
the spec's own "api" scenario for the main branch, the empty pattern, and a
whitespace-only pattern — with every hypothesis discharged there. -/
theorem c2_matcher_characterization_witness :
    ((FindMatches (NewMatcher 60) "api"
        ["API integration module", "Dashboard analytics widget"]).Perm
      (eligibleMatches (NewMatcher 60).minScore (toLowerStr (trimSpace "api")) 0
        ["API integration module", "Dashboard analytics widget"]) ∧
    (FindMatches (NewMatcher 60) "api"
        ["API integration module", "Dashboard analytics widget"]).Pairwise
      (fun a b => b.Score ≤ a.Score)) ∧
    FindMatches (NewMatcher 60) "" ["x"] = [] ∧
    FindMatches (NewMatcher 60) " " ["x"] = [] :=
  ⟨(c2_matcher_characterization 60 "api"
      ["API integration module", "Dashboard analytics widget"]).2.2
      (by decide) (by decide),
   (c2_matcher_characterization 60 "" ["x"]).1 rfl,
   (c2_matcher_characterization 60 " " ["x"]).2.1 (by decide)⟩

/-! ## Properties of the merge loop -/

theorem mem_addMissing (acc l : List String) (x : String) :
    x ∈ addMissing acc l ↔ x ∈ acc ∨ x ∈ l := by
  induction l generalizing acc with
  | nil => simp [addMissing]
  | cons y ys ih =>
    simp only [addMissing]
    split
    · rename_i hy
      rw [ih]
      constructor
      · rintro (h | h)
        · exact Or.inl h
        · exact Or.inr (List.mem_cons_of_mem y h)
      · rintro (h | h)
        · exact Or.inl h
        · rcases List.mem_cons.mp h with rfl | h'
          · exact Or.inl hy
          · exact Or.inr h'
    · rw [ih]
      simp [List.mem_append, List.mem_cons, or_assoc]

theorem addMissing_append_newItems (acc l : List String) :
    addMissing acc l = acc ++ newItems acc l := by
  induction l generalizing acc with
  | nil => simp [addMissing, newItems]
  | cons y ys ih =>
    simp only [addMissing, newItems]
    split
    · exact ih acc
    · rw [ih (acc ++ [y])]
      simp

theorem addMissing_nodup (acc l : List String) (h : acc.Nodup) :
    (addMissing acc l).Nodup := by
  induction l generalizing acc with
  | nil => simpa [addMissing]
  | cons y ys ih =>
    simp only [addMissing]
    split
    · exact ih acc h
    · rename_i hy
      refine ih (acc ++ [y]) ?_
      simp [List.nodup_append, h, hy]

theorem addMissing_noop (acc l : List String) (h : ∀ x ∈ l, x ∈ acc) :
    addMissing acc l = acc := by
  induction l with
  | nil => rfl
  | cons y ys ih =>
    simp only [addMissing, if_pos (h y (List.mem_cons_self y ys))]
    exact ih fun x hx => h x (List.mem_cons_of_mem y hx)

theorem addMissing_of_disjoint_nodup (acc l : List String) (hn : l.Nodup)
    (hd : ∀ x ∈ l, x ∉ acc) : addMissing acc l = acc ++ l := by
  induction l generalizing acc with
  | nil => simp [addMissing]
  | cons y ys ih =>
    obtain ⟨hy, hys⟩ := List.nodup_cons.mp hn
    simp only [addMissing, if_neg (hd y (List.mem_cons_self y ys))]
    rw [ih (acc ++ [y]) hys]
    · simp
    · intro x hx
      simp only [List.mem_append, List.mem_singleton]
      rintro (h | rfl)
      · exact hd x (List.mem_cons_of_mem y hx) h
      · exact hy hx

theorem dedupe_of_nodup (l : List String) (h : l.Nodup) : dedupe l = l := by
  simpa using addMissing_of_disjoint_nodup [] l h (by simp)

/-! ## Theorems for claim C8 (Add merge) -/

/-- C8: the Add merge `mergeSlices existing new` returns the deduplicated
existing members first, in their original order, followed by the new
members not already present, in their given order (first occurrence wins);
membership is exactly the union, the output has no duplicates,
`mergeSlices ["L1"] ["L2"] = ["L1","L2"]`, and re-merging the same incoming
list into the result changes nothing. -/
theorem c8_add_merge_union_order (existing newValues : List String) :
    mergeSlices existing newValues
      = dedupe existing ++ newItems (dedupe existing) newValues ∧
    (∀ x, x ∈ mergeSlices existing newValues ↔ x ∈ existing ∨ x ∈ newValues) ∧
    (mergeSlices existing newValues).Nodup ∧
    mergeSlices ["L1"] ["L2"] = ["L1", "L2"] ∧
    mergeSlices (mergeSlices existing newValues) newValues
      = mergeSlices existing newValues := by
  refine ⟨addMissing_append_newItems _ _, ?_, ?_, by decide, ?_⟩
  · intro x
    show x ∈ addMissing (addMissing [] existing) newValues ↔ _
    rw [mem_addMissing, mem_addMissing]
    simp
  · exact addMissing_nodup _ _ (addMissing_nodup _ _ List.nodup_nil)
  · have hR : (mergeSlices existing newValues).Nodup :=
      addMissing_nodup _ _ (addMissing_nodup _ _ List.nodup_nil)
    show addMissing (addMissing [] (mergeSlices existing newValues)) newValues
      = mergeSlices existing newValues
    rw [show addMissing [] (mergeSlices existing newValues)
      = mergeSlices existing newValues from dedupe_of_nodup _ hR]
    refine addMissing_noop _ _ fun x hx => ?_
    exact (mem_addMissing _ _ x).mpr (Or.inr hx)

/-! ## Theorems for claim C5 (Replace merge) -/

/-- C5, counterexample: with the reachable flag input
`--assignees a,a` (incoming list ["a","a"]) under Replace mode, the payload
field is the raw list ["a","a"], not the claimed `dedupe(["a","a"]) = ["a"]`:
the Replace branch assigns the incoming slice without deduplication. -/
theorem c5_counterexample :
    (bulkAssigneePayload ["a", "a"] true [] false [] emptyWorkItemUpdate).1.Assignees
      = ["a", "a"] ∧
    dedupe ["a", "a"] = ["a"] ∧
    (bulkAssigneePayload ["a", "a"] true [] false [] emptyWorkItemUpdate).1.Assignees
      ≠ dedupe ["a", "a"] := by
  refine ⟨by decide, by decide, by decide⟩

/-- C5, amended: for every non-empty incoming list X and any existing
lists, Replace mode puts X itself — order preserved, duplicates retained —
into the payload field, ignoring the existing list entirely (the result is
the same for any two existing lists); likewise for labels. -/
theorem c5_replace_keeps_duplicates (incoming existingA existingB : List String)
    (upd : WorkItemUpdate) (h : incoming ≠ []) :
    (bulkAssigneePayload incoming true [] false existingA upd).1.Assignees
      = incoming ∧
    bulkAssigneePayload incoming true [] false existingA upd
      = bulkAssigneePayload incoming true [] false existingB upd ∧
    (bulkLabelPayload incoming true [] false existingA upd).1.Labels
      = incoming := by
  have hlen : 0 < incoming.length := List.length_pos.mpr h
  refine ⟨?_, ?_, ?_⟩ <;>
    simp [bulkAssigneePayload, bulkLabelPayload, hlen]

/-- C5, witness for the amended statement at a concrete input. -/
theorem c5_replace_keeps_duplicates_witness :
    (bulkAssigneePayload ["x", "x", "y"] true [] false ["e1"]
        emptyWorkItemUpdate).1.Assignees = ["x", "x", "y"] ∧
    bulkAssigneePayload ["x", "x", "y"] true [] false ["e1"] emptyWorkItemUpdate
      = bulkAssigneePayload ["x", "x", "y"] true [] false ["e2"]
          emptyWorkItemUpdate ∧
    (bulkLabelPayload ["x", "x", "y"] true [] false ["e1"]
        emptyWorkItemUpdate).1.Labels = ["x", "x", "y"] :=
  c5_replace_keeps_duplicates ["x", "x", "y"] ["e1"] ["e2"]
    emptyWorkItemUpdate (by decide)

/-! ## Theorems for claim C1 (Clear mode) -/

/-- C1: choosing Clear for a list field in a bulk update (the interactive
selection returns the empty id list with replace = true, and the flags
carry no ids) leaves the mutation payload completely untouched and
contributes no update — the field is not set to an explicit empty list.
Moreover, under the `omitempty` JSON tag no payload at all can serialize
its assignees field as an explicit empty list: the wire value is `none`
(field absent) or a non-empty list, so the claimed "set to empty" mutation
is unrepresentable and the Clear choice is silently dropped. -/
theorem c1_clear_choice_dropped (existingUnion : List String)
    (upd : WorkItemUpdate) :
    bulkAssigneePayload [] false clearSelection.1 clearSelection.2
        existingUnion upd = (upd, false) ∧
    bulkLabelPayload [] false clearSelection.1 clearSelection.2
        existingUnion upd = (upd, false) ∧
    serializedAssignees emptyWorkItemUpdate = none ∧
    (∀ u : WorkItemUpdate, serializedAssignees u ≠ some []) := by
  refine ⟨by simp [bulkAssigneePayload, clearSelection],
    by simp [bulkLabelPayload, clearSelection], rfl, ?_⟩
  intro u h
  by_cases he : u.Assignees.isEmpty
  · simp [serializedAssignees, he] at h
  · simp only [serializedAssignees, if_neg he, Option.some.injEq] at h
    exact he (by simp [h])

/-! ## Theorems for claim C4 (batch Add determinism) -/

/-- A work item with every field at its zero value, for building concrete
inputs. -/
def zeroWorkItem : WorkItem :=
  ⟨"", "", "", "", "", "", "", [], [], [], [], "", "", "", 0, none, none,
    none, "", "", "", "", "", 0, 0⟩

/-- C4: `getAllAssignees` ranges over a Go map, whose iteration order is
randomized per run.  For the batch {w1 with assignees [a], w2 with
assignees [b]} both ["a","b"] and ["b","a"] are possible return values
(both are permutations of the key set), and merging the incoming list
["c"] into them yields different ordered payload lists — so two runs of
the batch Add-mode merge on identical inputs need not produce
byte-identical output. -/
theorem c4_map_iteration_nondeterminism :
    GetAllAssigneesCanReturn
      [{ zeroWorkItem with ID := "w1", Assignees := ["a"] },
       { zeroWorkItem with ID := "w2", Assignees := ["b"] }] ["a", "b"] ∧
    GetAllAssigneesCanReturn
      [{ zeroWorkItem with ID := "w1", Assignees := ["a"] },
       { zeroWorkItem with ID := "w2", Assignees := ["b"] }] ["b", "a"] ∧
    mergeSlices ["a", "b"] ["c"] = ["a", "b", "c"] ∧
    mergeSlices ["b", "a"] ["c"] = ["b", "a", "c"] ∧
    mergeSlices ["a", "b"] ["c"] ≠ mergeSlices ["b", "a"] ["c"] := by
  refine ⟨?_, ?_, by decide, by decide, by decide⟩
  · unfold GetAllAssigneesCanReturn
    decide
  · unfold GetAllAssigneesCanReturn
    decide

/-! ## Properties of the batch loops -/

theorem applyBulkUpdates_outcomes
    (mutate : String → String → WorkItemUpdate → Except String WorkItem)
    (projectID : String) (upd : WorkItemUpdate) (items : List WorkItem) :
    (applyBulkUpdates mutate projectID upd items).2.2
      = items.map fun it =>
          match mutate projectID it.ID upd with
          | .ok _ => ⟨it.ID, true, none⟩
          | .error e => ⟨it.ID, false, some e⟩ := by
  induction items with
  | nil => rfl
  | cons it rest ih =>
    simp only [applyBulkUpdates, List.map_cons]
    cases hm : mutate projectID it.ID upd with
    | ok w => simpa [hm] using ih
    | error e => simpa [hm] using ih

theorem applyBulkUpdates_counts
    (mutate : String → String → WorkItemUpdate → Except String WorkItem)
    (projectID : String) (upd : WorkItemUpdate) (items : List WorkItem) :
    (applyBulkUpdates mutate projectID upd items).1
      + (applyBulkUpdates mutate projectID upd items).2.1 = items.length := by
  induction items with
  | nil => rfl
  | cons it rest ih =>
    simp only [applyBulkUpdates, List.length_cons]
    cases hm : mutate projectID it.ID upd with
    | ok w => simp [hm]; omega
    | error e => simp [hm]; omega

theorem updateAllCount_le
    (mutate : String → String → WorkItemUpdate → Except String WorkItem)
    (project : String) (upd : WorkItemUpdate) (items : List WorkItem) :
    updateAllCount mutate project upd items ≤ items.length := by
  induction items with
  | nil => exact Nat.le_refl 0
  | cons it rest ih =>
    simp only [updateAllCount, List.length_cons]
    cases hm : mutate project it.ID upd with
    | ok w =>
      simp only [hm]
      omega
    | error e =>
      simp only [hm]
      omega

/-! ## Theorems for claim C6 (partial-failure tolerance) -/

/-- C6: for every remote collaborator behaviour, every target of a batch is
processed: the outcome list is exactly one entry per target, in target
order, carrying `some e` with the collaborator's error verbatim for a
failed target and `none` for a successful one; successCount + failCount
equals the number of targets, so the run always completes with a full
summary.  The `updateAll` loop of update.go likewise visits every item and
reports at most N successes. -/
theorem c6_batch_partial_failure_tolerance
    (mutate : String → String → WorkItemUpdate → Except String WorkItem)
    (projectID : String) (upd : WorkItemUpdate) (items : List WorkItem) :
    (applyBulkUpdates mutate projectID upd items).1
      + (applyBulkUpdates mutate projectID upd items).2.1 = items.length ∧
    (applyBulkUpdates mutate projectID upd items).2.2
      = (items.map fun it =>
          match mutate projectID it.ID upd with
          | .ok _ => ⟨it.ID, true, none⟩
          | .error e => ⟨it.ID, false, some e⟩) ∧
    ((applyBulkUpdates mutate projectID upd items).2.2).length
      = items.length ∧
    updateAllCount mutate projectID upd items ≤ items.length := by
  refine ⟨applyBulkUpdates_counts mutate projectID upd items,
    applyBulkUpdates_outcomes mutate projectID upd items, ?_,
    updateAllCount_le mutate projectID upd items⟩
  rw [applyBulkUpdates_outcomes]
  simp

/-! ## Theorems for claim C7 (dry run makes no remote calls) -/

/-- C7: in dry-run mode the bulk executor emits exactly one preview line
per selected item, in target order, issues no remote call and produces no
batch outcome — regardless of confirmation state or collaborator behaviour
— so a dry run can never surface a remote error; `printDryRun` of
update.go likewise prints exactly one preview block per matched item, in
order. -/
theorem c7_dry_run_no_remote_calls (confirmed : Bool)
    (mutate : String → String → WorkItemUpdate → Except String WorkItem)
    (projectID : String) (upd : WorkItemUpdate) (items : List WorkItem)
    (u2 : WorkItemUpdate) :
    bulkExecute true confirmed mutate projectID upd items
      = (items.map previewLine, [], none) ∧
    (items.map previewLine).length = items.length ∧
    printDryRun items u2
      = (items.map fun it =>
          ("  [" ++ it.ID ++ "] " ++ it.Name) :: printUpdateDetails u2) ∧
    (printDryRun items u2).length = items.length := by
  refine ⟨by simp [bulkExecute], by simp, rfl, by simp [printDryRun]⟩

/-! ## Properties of the substring fallback -/

theorem substringFallback_enumFrom (searchTerm : String)
    (titles : List String) (i : Nat) :
    ((List.enumFrom i titles).filterMap fun p =>
        if containsCL (toLowerStr searchTerm).toList (toLowerStr p.2).toList
        then some (⟨p.1, 50⟩ : MatchResult) else none)
      = fallbackSpec (toLowerStr searchTerm) i titles := by
  induction titles generalizing i with
  | nil => simp [fallbackSpec]
  | cons t ts ih =>
    simp only [List.enumFrom_cons, List.filterMap_cons]
    by_cases h : containsCL (toLowerStr searchTerm).data (toLowerStr t).data
    · simpa [fallbackSpec, h] using ih (i + 1)
    · simpa [fallbackSpec, h] using ih (i + 1)

theorem fallbackSpec_index_lb (searchLower : String) (titles : List String)
    (i : Nat) : ∀ r ∈ fallbackSpec searchLower i titles, i ≤ r.Index := by
  induction titles generalizing i with
  | nil => simp [fallbackSpec]
  | cons t ts ih =>
    intro r hr
    simp only [fallbackSpec] at hr
    split at hr
    · rcases List.mem_cons.mp hr with rfl | hr'
      · exact le_refl i
      · exact Nat.le_of_succ_le (ih (i + 1) r hr')
    · exact Nat.le_of_succ_le (ih (i + 1) r hr)

theorem fallbackSpec_score (searchLower : String) (titles : List String)
    (i : Nat) : ∀ r ∈ fallbackSpec searchLower i titles, r.Score = 50 := by
  induction titles generalizing i with
  | nil => simp [fallbackSpec]
  | cons t ts ih =>
    intro r hr
    simp only [fallbackSpec] at hr
    split at hr
    · rcases List.mem_cons.mp hr with rfl | hr'
      · rfl
      · exact ih (i + 1) r hr'
    · exact ih (i + 1) r hr

theorem fallbackSpec_pairwise_index (searchLower : String)
    (titles : List String) (i : Nat) :
    (fallbackSpec searchLower i titles).Pairwise
      (fun a b => a.Index < b.Index) := by
  induction titles generalizing i with
  | nil => simp [fallbackSpec]
  | cons t ts ih =>
    simp only [fallbackSpec]
    split
    · refine List.pairwise_cons.mpr ⟨?_, ih (i + 1)⟩
      intro r hr
      exact lt_of_lt_of_le (Nat.lt_succ_self i)
        (fallbackSpec_index_lb searchLower ts (i + 1) r hr)
    · exact ih (i + 1)

/-! ## Theorems for claim C9 (substring fallback activation) -/

/-- C9: the substring fallback activates exactly when the fuzzy matcher
returns the empty result set.  When the matcher finds anything, the
selection is the matcher's result unchanged — the fallback never replaces
fuzzy results.  When the matcher finds nothing, the selection is exactly
the candidates containing the search term case-insensitively, in original
candidate order (strictly increasing indices), each synthesized with score
exactly 50. -/
theorem c9_fallback_only_on_empty (minScore : Int) (searchTerm : String)
    (titles : List String) :
    (FindMatches (NewMatcher minScore) searchTerm titles ≠ [] →
      searchSelectMatches minScore searchTerm titles
        = FindMatches (NewMatcher minScore) searchTerm titles) ∧
    (FindMatches (NewMatcher minScore) searchTerm titles = [] →
      searchSelectMatches minScore searchTerm titles
        = fallbackSpec (toLowerStr searchTerm) 0 titles ∧
      (∀ r ∈ searchSelectMatches minScore searchTerm titles, r.Score = 50) ∧
      (searchSelectMatches minScore searchTerm titles).Pairwise
        (fun a b => a.Index < b.Index)) := by
  constructor
  · intro h
    simp [searchSelectMatches, List.isEmpty_iff, h]
  · intro h
    have hsel : searchSelectMatches minScore searchTerm titles
        = fallbackSpec (toLowerStr searchTerm) 0 titles := by
      rw [searchSelectMatches]
      simp only [h, List.isEmpty_nil, if_pos]
      rw [substringFallback,
        show (titles.enum = List.enumFrom 0 titles) from rfl,
        substringFallback_enumFrom]
    refine ⟨hsel, ?_, ?_⟩
    · rw [hsel]
      exact fallbackSpec_score _ _ _
    · rw [hsel]
      exact fallbackSpec_pairwise_index _ _ _

/-- C9, witness: with min_score 100 the pattern "abcde" scores 45 on the
identical title, so the fuzzy result set is empty and the fallback fires
with score 50; with min_score 0 and pattern "ab" the fuzzy result is
non-empty and is returned unchanged.  Every hypothesis is discharged on a
concrete input. -/
theorem c9_fallback_only_on_empty_witness :
    (searchSelectMatches 100 "abcde" ["abcde"]
      = fallbackSpec (toLowerStr "abcde") 0 ["abcde"] ∧
    (∀ r ∈ searchSelectMatches 100 "abcde" ["abcde"], r.Score = 50) ∧
    (searchSelectMatches 100 "abcde" ["abcde"]).Pairwise
      (fun a b => a.Index < b.Index)) ∧
    searchSelectMatches 0 "ab" ["ab"] = FindMatches (NewMatcher 0) "ab" ["ab"] :=
  ⟨(c9_fallback_only_on_empty 100 "abcde" ["abcde"]).2 (by decide),
   (c9_fallback_only_on_empty 0 "ab" ["ab"]).1 (by decide)⟩

/-! ## Theorems for claim C10 (LimitResults) -/

/-- C10: LimitResults returns the input unchanged when the limit is
non-positive (no truncation, not an empty result) or when the list already
has at most `limit` elements; otherwise it returns exactly the first
`limit` elements in their original order. -/
theorem c10_limit_results (matchList : List MatchResult) (limit : Int) :
    (limit ≤ 0 → LimitResults matchList limit = matchList) ∧
    ((matchList.length : Int) ≤ limit → LimitResults matchList limit = matchList) ∧
    (0 < limit → limit < (matchList.length : Int) →
      LimitResults matchList limit = matchList.take limit.toNat ∧
      (LimitResults matchList limit).length = limit.toNat) := by
  refine ⟨fun h => by simp [LimitResults, h],
    fun h => by simp [LimitResults, h], fun h1 h2 => ?_⟩
  have hcond : ¬(limit ≤ 0 ∨ (matchList.length : Int) ≤ limit) := by omega
  refine ⟨by simp [LimitResults, hcond], ?_⟩
  simp only [LimitResults, if_neg hcond, List.length_take]
  omega

/-- C10, witness at concrete inputs covering all three branches: a
truncating limit, a non-positive limit and a limit at least the length. -/
theorem c10_limit_results_witness :
    (LimitResults [⟨0, 90⟩, ⟨1, 80⟩] 1
      = ([⟨0, 90⟩, ⟨1, 80⟩] : List MatchResult).take (1 : Int).toNat ∧
    (LimitResults [⟨0, 90⟩, ⟨1, 80⟩] 1).length = (1 : Int).toNat) ∧
    LimitResults [⟨0, 90⟩, ⟨1, 80⟩] (-2) = [⟨0, 90⟩, ⟨1, 80⟩] ∧
    LimitResults [⟨0, 90⟩, ⟨1, 80⟩] 5 = [⟨0, 90⟩, ⟨1, 80⟩] :=
  ⟨(c10_limit_results [⟨0, 90⟩, ⟨1, 80⟩] 1).2.2 (by decide) (by decide),
   (c10_limit_results [⟨0, 90⟩, ⟨1, 80⟩] (-2)).1 (by decide),
   (c10_limit_results [⟨0, 90⟩, ⟨1, 80⟩] 5).2.1 (by decide)⟩

end PlaneCLI
